import Mathlib

/-!
Shallow embedding of the C++ tokenizer in `src/lexical.cpp` (class `Tokenizer`
and its helpers), together with proofs about its specified behaviour.

The source buffer is modelled as a `List Char`; `std::string` indexing with the
`'\0'` sentinel for out-of-range reads is modelled with `List.getD` and the
explicit length test that the C++ `peek` performs.  Character classification
(`std::isspace`, `std::isalpha`, `std::isdigit`, `std::isalnum`) is modelled by
the default "C"-locale ASCII predicates.  Each C++ `while` loop becomes a
structurally recursive function on a fuel argument; at every call site the fuel
is instantiated with `source.length - pos`, which is exactly enough because
every loop guard implies `pos < source.length` and every iteration advances
`pos` by at least one.
-/

inductive TokenType where
  | KEYWORD
  | IDENTIFIER
  | NUMBER
  | OPERATOR
  | PUNCTUATION
  | STRING_LITERAL
  | END_OF_FILE
  | UNKNOWN
deriving DecidableEq, Repr

structure Token where
  type : TokenType
  value : List Char
  line : Nat
  column : Nat
deriving DecidableEq, Repr

/-- The fixed reserved-word set (`Tokenizer::keywords`). -/
def keywords : List String :=
  ["auto", "break", "case", "char", "const", "continue", "default",
   "do", "double", "else", "enum", "extern", "float", "for", "goto",
   "if", "int", "long", "register", "return", "short", "signed",
   "sizeof", "static", "struct", "switch", "typedef", "union",
   "unsigned", "void", "volatile", "while", "class", "namespace",
   "public", "private", "protected", "virtual", "bool", "true", "false"]

/-- `std::isspace` in the default "C" locale. -/
def isspaceChar (c : Char) : Bool :=
  c = ' ' || c = '\t' || c = '\n' || c = '\x0b' || c = '\x0c' || c = '\r'

/-- `std::isdigit`. -/
def isdigitChar (c : Char) : Bool :=
  '0' ≤ c && c ≤ '9'

/-- `std::isalpha` in the default "C" locale. -/
def isalphaChar (c : Char) : Bool :=
  ('a' ≤ c && c ≤ 'z') || ('A' ≤ c && c ≤ 'Z')

/-- `std::isalnum` in the default "C" locale. -/
def isalnumChar (c : Char) : Bool :=
  isalphaChar c || isdigitChar c

structure Tokenizer where
  source : List Char
  pos : Nat
  line : Nat
  column : Nat
deriving DecidableEq, Repr

namespace Tokenizer

/-- The constructor `Tokenizer(const std::string&)`. -/
def init (src : List Char) : Tokenizer :=
  ⟨src, 0, 1, 1⟩

/-- `Tokenizer::peek`. -/
def peek (s : Tokenizer) (off : Nat) : Char :=
  if s.source.length ≤ s.pos + off then '\x00'
  else s.source.getD (s.pos + off) '\x00'

/-- `Tokenizer::advance`: returns the consumed character and the new state. -/
def advance (s : Tokenizer) : Char × Tokenizer :=
  if s.source.length ≤ s.pos then ('\x00', s)
  else
    let c := s.source.getD s.pos '\x00'
    (c,
     if c = '\n' then
       { s with pos := s.pos + 1, line := s.line + 1, column := 1 }
     else
       { s with pos := s.pos + 1, column := s.column + 1 })

/-- The loop of `Tokenizer::skipWhitespace`, on fuel. -/
def skipWhitespaceFuel : Nat → Tokenizer → Tokenizer
  | 0, s => s
  | f + 1, s =>
    if s.pos < s.source.length ∧ isspaceChar (s.peek 0) then
      skipWhitespaceFuel f (s.advance).2
    else s

/-- `Tokenizer::skipWhitespace`. -/
def skipWhitespace (s : Tokenizer) : Tokenizer :=
  skipWhitespaceFuel (s.source.length - s.pos) s

/-- The single-line-comment loop of `Tokenizer::skipComments`, on fuel. -/
def lineCommentFuel : Nat → Tokenizer → Tokenizer
  | 0, s => s
  | f + 1, s =>
    if s.peek 0 ≠ '\n' ∧ s.peek 0 ≠ '\x00' then
      lineCommentFuel f (s.advance).2
    else s

/-- The multi-line-comment loop of `Tokenizer::skipComments`, on fuel. -/
def blockCommentFuel : Nat → Tokenizer → Tokenizer
  | 0, s => s
  | f + 1, s =>
    if ¬(s.peek 0 = '*' ∧ s.peek 1 = '/') ∧ s.peek 0 ≠ '\x00' then
      blockCommentFuel f (s.advance).2
    else s

/-- `Tokenizer::skipComments`. -/
def skipComments (s : Tokenizer) : Tokenizer :=
  if s.peek 0 = '/' ∧ s.peek 1 = '/' then
    lineCommentFuel (s.source.length - s.pos) s
  else if s.peek 0 = '/' ∧ s.peek 1 = '*' then
    let s1 := (s.advance).2
    let s2 := (s1.advance).2
    let s3 := blockCommentFuel (s2.source.length - s2.pos) s2
    if s3.peek 0 ≠ '\x00' then ((s3.advance).2.advance).2 else s3
  else s

/-- The accumulation loop of `Tokenizer::readIdentifierOrKeyword`, on fuel. -/
def identFuel : Nat → Tokenizer → List Char × Tokenizer
  | 0, s => ([], s)
  | f + 1, s =>
    if isalnumChar (s.peek 0) ∨ s.peek 0 = '_' then
      let p := s.advance
      let r := identFuel f p.2
      (p.1 :: r.1, r.2)
    else ([], s)

/-- `Tokenizer::readIdentifierOrKeyword`. -/
def readIdentifierOrKeyword (s : Tokenizer) : Token × Tokenizer :=
  let startLine := s.line
  let startCol := s.column
  let r := identFuel (s.source.length - s.pos) s
  let t :=
    if keywords.contains (String.mk r.1) then TokenType.KEYWORD
    else TokenType.IDENTIFIER
  (⟨t, r.1, startLine, startCol⟩, r.2)

/-- The accumulation loop of `Tokenizer::readNumber`, on fuel. -/
def numberFuel : Nat → Tokenizer → List Char × Tokenizer
  | 0, s => ([], s)
  | f + 1, s =>
    if isdigitChar (s.peek 0) ∨ s.peek 0 = '.' then
      let p := s.advance
      let r := numberFuel f p.2
      (p.1 :: r.1, r.2)
    else ([], s)

/-- `Tokenizer::readNumber`. -/
def readNumber (s : Tokenizer) : Token × Tokenizer :=
  let startLine := s.line
  let startCol := s.column
  let r := numberFuel (s.source.length - s.pos) s
  (⟨TokenType.NUMBER, r.1, startLine, startCol⟩, r.2)

/-- The accumulation loop of `Tokenizer::readString`, on fuel. -/
def stringBodyFuel : Nat → Tokenizer → List Char × Tokenizer
  | 0, s => ([], s)
  | f + 1, s =>
    if s.peek 0 ≠ '"' ∧ s.peek 0 ≠ '\x00' then
      if s.peek 0 = '\\' then
        let s1 := (s.advance).2
        if s1.peek 0 ≠ '\x00' then
          let p := s1.advance
          let r := stringBodyFuel f p.2
          (p.1 :: r.1, r.2)
        else stringBodyFuel f s1
      else
        let p := s.advance
        let r := stringBodyFuel f p.2
        (p.1 :: r.1, r.2)
    else ([], s)

/-- `Tokenizer::readString`. -/
def readString (s : Tokenizer) : Token × Tokenizer :=
  let startLine := s.line
  let startCol := s.column
  let s1 := (s.advance).2
  let r := stringBodyFuel (s1.source.length - s1.pos) s1
  let s2 := if r.2.peek 0 = '"' then ((r.2).advance).2 else r.2
  (⟨TokenType.STRING_LITERAL, r.1, startLine, startCol⟩, s2)

/-- The two-character-operator table test in `Tokenizer::readOperator`. -/
def isTwoCharOp (c n : Char) : Bool :=
  (c = '=' && n = '=') ||
  (c = '!' && n = '=') ||
  (c = '<' && n = '=') ||
  (c = '>' && n = '=') ||
  (c = '+' && n = '+') ||
  (c = '-' && n = '-') ||
  (c = '&' && n = '&') ||
  (c = '|' && n = '|') ||
  (c = '-' && n = '>') ||
  (c = ':' && n = ':')

/-- `Tokenizer::readOperator`. -/
def readOperator (s : Tokenizer) : Token × Tokenizer :=
  let startLine := s.line
  let startCol := s.column
  let c := s.peek 0
  let n := s.peek 1
  if isTwoCharOp c n then
    let p1 := s.advance
    let p2 := (p1.2).advance
    (⟨TokenType.OPERATOR, [p1.1, p2.1], startLine, startCol⟩, p2.2)
  else
    let p1 := s.advance
    (⟨TokenType.OPERATOR, [p1.1], startLine, startCol⟩, p1.2)

/-- The punctuation-character test in `Tokenizer::tokenize`. -/
def isPunctChar (c : Char) : Bool :=
  c = ';' || c = ',' || c = '(' || c = ')' ||
  c = '{' || c = '}' || c = '[' || c = ']'

/-- The operator-character test in `Tokenizer::tokenize`. -/
def isOpChar (c : Char) : Bool :=
  c = '+' || c = '-' || c = '*' || c = '/' ||
  c = '=' || c = '<' || c = '>' || c = '!' ||
  c = '&' || c = '|' || c = ':'

/-- The dispatch body of one iteration of the `tokenize` loop (taken after
whitespace/comment skipping, with `s.pos < s.source.length`). -/
def dispatch (s : Tokenizer) : Token × Tokenizer :=
  let c := s.peek 0
  let startLine := s.line
  let startCol := s.column
  if isalphaChar c ∨ c = '_' then s.readIdentifierOrKeyword
  else if isdigitChar c then s.readNumber
  else if c = '"' then s.readString
  else if isPunctChar c then
    let p := s.advance
    (⟨TokenType.PUNCTUATION, [p.1], startLine, startCol⟩, p.2)
  else if isOpChar c then s.readOperator
  else
    let p := s.advance
    (⟨TokenType.UNKNOWN, [p.1], startLine, startCol⟩, p.2)

/-- The `while (pos < source.length())` loop of `Tokenizer::tokenize`, on
fuel. -/
def tokenizeFuel : Nat → Tokenizer → List Token × Tokenizer
  | 0, s => ([], s)
  | f + 1, s =>
    if s.pos < s.source.length then
      let s1 := (s.skipWhitespace).skipComments
      if s1.source.length ≤ s1.pos then ([], s1)
      else
        let r := s1.dispatch
        let rest := tokenizeFuel f r.2
        (r.1 :: rest.1, rest.2)
    else ([], s)

/-- The final cursor state reached by the scan of `src`. -/
def finalState (src : List Char) : Tokenizer :=
  (tokenizeFuel src.length (init src)).2

/-- `Tokenizer::tokenize`. -/
def tokenize (src : List Char) : List Token :=
  let r := tokenizeFuel src.length (init src)
  r.1 ++ [⟨TokenType.END_OF_FILE, [], r.2.line, r.2.column⟩]

/-- The scan loop of `Tokenizer::tokenize` instrumented with ghost data: each
emitted token is paired with the byte offset of the cursor at the moment its
sub-scanner is dispatched, i.e. the offset of the first character of its
lexeme.  Identical to `tokenizeFuel` except for recording that offset; the
erasure theorem `tokenizeFuelWithStarts_erase` proves the token part and the
final state coincide with `tokenizeFuel`. -/
def tokenizeFuelWithStarts : Nat → Tokenizer → List (Token × Nat) × Tokenizer
  | 0, s => ([], s)
  | f + 1, s =>
    if s.pos < s.source.length then
      let s1 := (s.skipWhitespace).skipComments
      if s1.source.length ≤ s1.pos then ([], s1)
      else
        let r := s1.dispatch
        let rest := tokenizeFuelWithStarts f r.2
        ((r.1, s1.pos) :: rest.1, rest.2)
    else ([], s)

/-- The line/column position of byte offset `n` in `src`, computed by the
newline/column-increment rule: start at `(1, 1)`; a newline increments the
line and resets the column to `1`; any other character increments the
column. -/
def lcStep (lc : Nat × Nat) (c : Char) : Nat × Nat :=
  if c = '\n' then (lc.1 + 1, 1) else (lc.1, lc.2 + 1)

def lineColAt (src : List Char) (n : Nat) : Nat × Nat :=
  (src.take n).foldl lcStep (1, 1)

/-- The token `t` begins at offset `o` of `src`: a string literal begins at
its opening double-quote; any other token's `value` is the (nonempty)
substring of `src` starting at `o`. -/
def lexStart (src : List Char) (o : Nat) (t : Token) : Prop :=
  if t.type = TokenType.STRING_LITERAL then src.getD o '\x00' = '"'
  else t.value ≠ [] ∧ (src.drop o).take t.value.length = t.value

theorem peek_eq_nul_of_le (s : Tokenizer) (k : Nat)
    (h : s.source.length ≤ s.pos + k) : s.peek k = '\x00' := by
  unfold peek
  rw [if_pos h]

theorem lt_of_peek_ne_nul (s : Tokenizer) (k : Nat) (h : s.peek k ≠ '\x00') :
    s.pos + k < s.source.length := by
  by_contra hc
  exact h (peek_eq_nul_of_le s k (Nat.le_of_not_lt hc))

theorem peek_eq_getD (s : Tokenizer) (k : Nat) (h : s.pos + k < s.source.length) :
    s.peek k = s.source.getD (s.pos + k) '\x00' := by
  unfold peek
  rw [if_neg (Nat.not_le.2 h)]

theorem advance_eq_of_le (s : Tokenizer) (h : s.source.length ≤ s.pos) :
    s.advance = ('\x00', s) := by
  unfold advance
  rw [if_pos h]

theorem advance_source (s : Tokenizer) : (s.advance).2.source = s.source := by
  unfold advance
  split
  · rfl
  · dsimp only
    split <;> rfl

theorem advance_fst (s : Tokenizer) (h : s.pos < s.source.length) :
    (s.advance).1 = s.source.getD s.pos '\x00' := by
  unfold advance
  rw [if_neg (Nat.not_le.2 h)]

theorem advance_pos (s : Tokenizer) (h : s.pos < s.source.length) :
    (s.advance).2.pos = s.pos + 1 := by
  unfold advance
  rw [if_neg (Nat.not_le.2 h)]
  dsimp only
  split <;> rfl

theorem advance_pos_le (s : Tokenizer) (h : s.pos ≤ s.source.length) :
    (s.advance).2.pos ≤ s.source.length := by
  rcases Nat.lt_or_ge s.pos s.source.length with h1 | h1
  · rw [advance_pos s h1]
    omega
  · rw [advance_eq_of_le s h1]
    exact h

theorem lineColAt_zero (src : List Char) : lineColAt src 0 = (1, 1) := rfl

theorem lineColAt_succ (src : List Char) (n : Nat) (h : n < src.length) :
    lineColAt src (n + 1) = lcStep (lineColAt src n) (src.getD n '\x00') := by
  unfold lineColAt
  rw [List.take_succ, List.foldl_append, List.getElem?_eq_getElem h,
      List.getD_eq_getElem _ _ h]
  rfl

/-- The cursor invariant: the recorded line/column agree with the position of
the cursor's byte offset as computed by the newline/column-increment rule. -/
def posInv (s : Tokenizer) : Prop :=
  (s.line, s.column) = lineColAt s.source s.pos

theorem posInv_init (src : List Char) : posInv (init src) := rfl

theorem posInv_advance {s : Tokenizer} (h : posInv s) : posInv ((s.advance).2) := by
  rcases Nat.lt_or_ge s.pos s.source.length with h1 | h1
  · unfold posInv at h ⊢
    unfold advance
    rw [if_neg (Nat.not_le.2 h1)]
    dsimp only
    by_cases hc : s.source.getD s.pos '\x00' = '\n'
    · rw [if_pos hc]
      show (s.line + 1, 1) = lineColAt s.source (s.pos + 1)
      rw [lineColAt_succ _ _ h1, ← h]
      unfold lcStep
      rw [if_pos hc]
    · rw [if_neg hc]
      show (s.line, s.column + 1) = lineColAt s.source (s.pos + 1)
      rw [lineColAt_succ _ _ h1, ← h]
      unfold lcStep
      rw [if_neg hc]
  · rw [advance_eq_of_le s h1]
    exact h

theorem skipWhitespaceFuel_pres (P : Tokenizer → Prop)
    (hP : ∀ s, P s → P ((s.advance).2)) :
    ∀ (f : Nat) (s : Tokenizer), P s → P (skipWhitespaceFuel f s) := by
  intro f
  induction f with
  | zero => intro s h; exact h
  | succ f ih =>
    intro s h
    unfold skipWhitespaceFuel
    split
    · exact ih _ (hP _ h)
    · exact h

theorem lineCommentFuel_pres (P : Tokenizer → Prop)
    (hP : ∀ s, P s → P ((s.advance).2)) :
    ∀ (f : Nat) (s : Tokenizer), P s → P (lineCommentFuel f s) := by
  intro f
  induction f with
  | zero => intro s h; exact h
  | succ f ih =>
    intro s h
    unfold lineCommentFuel
    split
    · exact ih _ (hP _ h)
    · exact h

theorem blockCommentFuel_pres (P : Tokenizer → Prop)
    (hP : ∀ s, P s → P ((s.advance).2)) :
    ∀ (f : Nat) (s : Tokenizer), P s → P (blockCommentFuel f s) := by
  intro f
  induction f with
  | zero => intro s h; exact h
  | succ f ih =>
    intro s h
    unfold blockCommentFuel
    split
    · exact ih _ (hP _ h)
    · exact h

theorem skipWhitespace_pres (P : Tokenizer → Prop)
    (hP : ∀ s, P s → P ((s.advance).2)) (s : Tokenizer) (h : P s) :
    P (s.skipWhitespace) :=
  skipWhitespaceFuel_pres P hP _ s h

theorem skipComments_pres (P : Tokenizer → Prop)
    (hP : ∀ s, P s → P ((s.advance).2)) (s : Tokenizer) (h : P s) :
    P (s.skipComments) := by
  unfold skipComments
  split
  · exact lineCommentFuel_pres P hP _ s h
  · split
    · dsimp only
      split
      · exact hP _ (hP _ (blockCommentFuel_pres P hP _ _ (hP _ (hP _ h))))
      · exact blockCommentFuel_pres P hP _ _ (hP _ (hP _ h))
    · exact h

theorem identFuel_pres (P : Tokenizer → Prop)
    (hP : ∀ s, P s → P ((s.advance).2)) :
    ∀ (f : Nat) (s : Tokenizer), P s → P ((identFuel f s).2) := by
  intro f
  induction f with
  | zero => intro s h; exact h
  | succ f ih =>
    intro s h
    unfold identFuel
    split
    · exact ih _ (hP _ h)
    · exact h

theorem numberFuel_pres (P : Tokenizer → Prop)
    (hP : ∀ s, P s → P ((s.advance).2)) :
    ∀ (f : Nat) (s : Tokenizer), P s → P ((numberFuel f s).2) := by
  intro f
  induction f with
  | zero => intro s h; exact h
  | succ f ih =>
    intro s h
    unfold numberFuel
    split
    · exact ih _ (hP _ h)
    · exact h

theorem stringBodyFuel_pres (P : Tokenizer → Prop)
    (hP : ∀ s, P s → P ((s.advance).2)) :
    ∀ (f : Nat) (s : Tokenizer), P s → P ((stringBodyFuel f s).2) := by
  intro f
  induction f with
  | zero => intro s h; exact h
  | succ f ih =>
    intro s h
    unfold stringBodyFuel
    split
    · split
      · dsimp only
        split
        · exact ih _ (hP _ (hP _ h))
        · exact ih _ (hP _ h)
      · exact ih _ (hP _ h)
    · exact h

theorem readIdentifierOrKeyword_pres (P : Tokenizer → Prop)
    (hP : ∀ s, P s → P ((s.advance).2)) (s : Tokenizer) (h : P s) :
    P ((s.readIdentifierOrKeyword).2) :=
  identFuel_pres P hP _ s h

theorem readNumber_pres (P : Tokenizer → Prop)
    (hP : ∀ s, P s → P ((s.advance).2)) (s : Tokenizer) (h : P s) :
    P ((s.readNumber).2) :=
  numberFuel_pres P hP _ s h

theorem readString_pres (P : Tokenizer → Prop)
    (hP : ∀ s, P s → P ((s.advance).2)) (s : Tokenizer) (h : P s) :
    P ((s.readString).2) := by
  unfold readString
  dsimp only
  split
  · exact hP _ (stringBodyFuel_pres P hP _ _ (hP _ h))
  · exact stringBodyFuel_pres P hP _ _ (hP _ h)

theorem readOperator_pres (P : Tokenizer → Prop)
    (hP : ∀ s, P s → P ((s.advance).2)) (s : Tokenizer) (h : P s) :
    P ((s.readOperator).2) := by
  unfold readOperator
  dsimp only
  split
  · exact hP _ (hP _ h)
  · exact hP _ h

theorem dispatch_pres (P : Tokenizer → Prop)
    (hP : ∀ s, P s → P ((s.advance).2)) (s : Tokenizer) (h : P s) :
    P ((s.dispatch).2) := by
  unfold dispatch
  dsimp only
  split
  · exact readIdentifierOrKeyword_pres P hP s h
  · split
    · exact readNumber_pres P hP s h
    · split
      · exact readString_pres P hP s h
      · split
        · exact hP _ h
        · split
          · exact readOperator_pres P hP s h
          · exact hP _ h

theorem source_advance_pres (src : List Char) :
    ∀ s : Tokenizer, s.source = src → ((s.advance).2).source = src := by
  intro s h
  rw [advance_source]
  exact h

theorem posInv_advance_pres :
    ∀ s : Tokenizer, posInv s → posInv ((s.advance).2) := by
  intro s h
  exact posInv_advance h

theorem posLe_advance_pres :
    ∀ s : Tokenizer, s.pos ≤ s.source.length → (s.advance).2.pos ≤ (s.advance).2.source.length := by
  intro s h
  rw [advance_source]
  exact advance_pos_le s h

theorem drop_pos_cons (s : Tokenizer) (h : s.pos < s.source.length) :
    s.source.drop s.pos = s.source.getD s.pos '\x00' :: s.source.drop (s.pos + 1) := by
  rw [List.drop_eq_getElem_cons h, List.getD_eq_getElem _ _ h]

theorem peek_zero_eq_getD (s : Tokenizer) (h : s.pos < s.source.length) :
    s.peek 0 = s.source.getD s.pos '\x00' := by
  have := peek_eq_getD s 0 (by omega)
  simpa using this

theorem take_length_takeWhile {α : Type} (p : α → Bool) :
    ∀ l : List α, l.take (l.takeWhile p).length = l.takeWhile p := by
  intro l
  induction l with
  | nil => rfl
  | cons a l ih =>
    rw [List.takeWhile_cons]
    by_cases h : p a
    · rw [if_pos h]
      simpa [List.take_succ_cons] using ih
    · rw [if_neg h]
      rfl

theorem identFuel_eq_takeWhile :
    ∀ (f : Nat) (s : Tokenizer), s.source.length - s.pos ≤ f →
      (identFuel f s).1 =
        (s.source.drop s.pos).takeWhile (fun c => isalnumChar c || c == '_') := by
  intro f
  induction f with
  | zero =>
    intro s h
    have hnil : s.source.drop s.pos = [] := List.drop_eq_nil_iff.2 (by omega)
    rw [hnil]
    rfl
  | succ f ih =>
    intro s h
    by_cases hg : isalnumChar (s.peek 0) = true ∨ s.peek 0 = '_'
    · have hne : s.peek 0 ≠ '\x00' := by
        rcases hg with h1 | h1
        · intro hc
          rw [hc] at h1
          exact absurd h1 (by decide)
        · intro hc
          rw [hc] at h1
          exact absurd h1 (by decide)
      have hlt : s.pos < s.source.length := by
        have := lt_of_peek_ne_nul s 0 hne
        omega
      have hpeek := peek_zero_eq_getD s hlt
      have hpred : (isalnumChar (s.source.getD s.pos '\x00') ||
          s.source.getD s.pos '\x00' == '_') = true := by
        rw [← hpeek]
        rcases hg with h1 | h1 <;> simp [h1]
      unfold identFuel
      rw [if_pos hg]
      dsimp only
      rw [drop_pos_cons s hlt, List.takeWhile_cons, if_pos hpred,
          advance_fst s hlt]
      have hcond : (s.advance).2.source.length - (s.advance).2.pos ≤ f := by
        rw [advance_source, advance_pos s hlt]
        omega
      rw [ih _ hcond, advance_source, advance_pos s hlt]
    · unfold identFuel
      rw [if_neg hg]
      dsimp only
      rcases Nat.lt_or_ge s.pos s.source.length with hlt | hge
      · have hpeek := peek_zero_eq_getD s hlt
        rw [not_or] at hg
        have hpred : (isalnumChar (s.source.getD s.pos '\x00') ||
            s.source.getD s.pos '\x00' == '_') = false := by
          rw [← hpeek]
          simp only [Bool.or_eq_false_iff, beq_eq_false_iff_ne]
          exact ⟨by simpa using hg.1, hg.2⟩
        rw [drop_pos_cons s hlt, List.takeWhile_cons, if_neg (by rw [hpred]; decide)]
      · have hnil : s.source.drop s.pos = [] := List.drop_eq_nil_iff.2 hge
        rw [hnil]
        rfl

theorem numberFuel_eq_takeWhile :
    ∀ (f : Nat) (s : Tokenizer), s.source.length - s.pos ≤ f →
      (numberFuel f s).1 =
        (s.source.drop s.pos).takeWhile (fun c => isdigitChar c || c == '.') := by
  intro f
  induction f with
  | zero =>
    intro s h
    have hnil : s.source.drop s.pos = [] := List.drop_eq_nil_iff.2 (by omega)
    rw [hnil]
    rfl
  | succ f ih =>
    intro s h
    by_cases hg : isdigitChar (s.peek 0) = true ∨ s.peek 0 = '.'
    · have hne : s.peek 0 ≠ '\x00' := by
        rcases hg with h1 | h1
        · intro hc
          rw [hc] at h1
          exact absurd h1 (by decide)
        · intro hc
          rw [hc] at h1
          exact absurd h1 (by decide)
      have hlt : s.pos < s.source.length := by
        have := lt_of_peek_ne_nul s 0 hne
        omega
      have hpeek := peek_zero_eq_getD s hlt
      have hpred : (isdigitChar (s.source.getD s.pos '\x00') ||
          s.source.getD s.pos '\x00' == '.') = true := by
        rw [← hpeek]
        rcases hg with h1 | h1 <;> simp [h1]
      unfold numberFuel
      rw [if_pos hg]
      dsimp only
      rw [drop_pos_cons s hlt, List.takeWhile_cons, if_pos hpred,
          advance_fst s hlt]
      have hcond : (s.advance).2.source.length - (s.advance).2.pos ≤ f := by
        rw [advance_source, advance_pos s hlt]
        omega
      rw [ih _ hcond, advance_source, advance_pos s hlt]
    · unfold numberFuel
      rw [if_neg hg]
      dsimp only
      rcases Nat.lt_or_ge s.pos s.source.length with hlt | hge
      · have hpeek := peek_zero_eq_getD s hlt
        rw [not_or] at hg
        have hpred : (isdigitChar (s.source.getD s.pos '\x00') ||
            s.source.getD s.pos '\x00' == '.') = false := by
          rw [← hpeek]
          simp only [Bool.or_eq_false_iff, beq_eq_false_iff_ne]
          exact ⟨by simpa using hg.1, hg.2⟩
        rw [drop_pos_cons s hlt, List.takeWhile_cons, if_neg (by rw [hpred]; decide)]
      · have hnil : s.source.drop s.pos = [] := List.drop_eq_nil_iff.2 hge
        rw [hnil]
        rfl

/-- The fixed table of two-character operators, as pairs. -/
def opPairs : List (Char × Char) :=
  [('=', '='), ('!', '='), ('<', '='), ('>', '='), ('+', '+'),
   ('-', '-'), ('&', '&'), ('|', '|'), ('-', '>'), (':', ':')]

theorem isTwoCharOp_iff_mem {c n : Char} :
    isTwoCharOp c n = true ↔ (c, n) ∈ opPairs := by
  unfold isTwoCharOp opPairs
  simp only [Bool.or_eq_true, Bool.and_eq_true, decide_eq_true_eq,
    List.mem_cons, List.not_mem_nil, or_false, Prod.mk.injEq, or_assoc]

theorem isTwoCharOp_snd_ne_nul {c n : Char} (h : isTwoCharOp c n = true) :
    n ≠ '\x00' := by
  unfold isTwoCharOp at h
  simp only [Bool.or_eq_true, Bool.and_eq_true, decide_eq_true_eq] at h
  rcases h with (((((((((h | h) | h) | h) | h) | h) | h) | h) | h) | h) <;>
    rw [h.2] <;> decide

theorem readOperator_two (s : Tokenizer)
    (h2 : isTwoCharOp (s.peek 0) (s.peek 1) = true) :
    (s.readOperator).1 =
      ⟨TokenType.OPERATOR, [s.peek 0, s.peek 1], s.line, s.column⟩ ∧
    (s.readOperator).2.pos = s.pos + 2 := by
  have hne1 : s.peek 1 ≠ '\x00' := isTwoCharOp_snd_ne_nul h2
  have hlt1 : s.pos + 1 < s.source.length := lt_of_peek_ne_nul s 1 hne1
  have hlt : s.pos < s.source.length := by omega
  have hlt' : (s.advance).2.pos < (s.advance).2.source.length := by
    rw [advance_source, advance_pos s hlt]
    exact hlt1
  unfold readOperator
  rw [if_pos h2]
  dsimp only
  refine ⟨?_, ?_⟩
  · rw [advance_fst s hlt, advance_fst _ hlt', advance_source, advance_pos s hlt,
      peek_zero_eq_getD s hlt, peek_eq_getD s 1 hlt1]
  · rw [advance_pos _ hlt', advance_pos s hlt]

theorem readOperator_one (s : Tokenizer)
    (hop : isOpChar (s.peek 0) = true)
    (h2 : ¬ isTwoCharOp (s.peek 0) (s.peek 1) = true) :
    (s.readOperator).1 =
      ⟨TokenType.OPERATOR, [s.peek 0], s.line, s.column⟩ ∧
    (s.readOperator).2.pos = s.pos + 1 := by
  have hne : s.peek 0 ≠ '\x00' := by
    intro hc
    rw [hc] at hop
    exact absurd hop (by decide)
  have hlt : s.pos < s.source.length := by
    have := lt_of_peek_ne_nul s 0 hne
    omega
  unfold readOperator
  rw [if_neg h2]
  dsimp only
  refine ⟨?_, advance_pos s hlt⟩
  rw [advance_fst s hlt, peek_zero_eq_getD s hlt]

theorem readOperator_type (s : Tokenizer) :
    (s.readOperator).1.type = TokenType.OPERATOR := by
  unfold readOperator
  dsimp only
  split <;> rfl

theorem drop_getD_cons (src : List Char) (n : Nat) (h : n < src.length) :
    src.drop n = src.getD n '\x00' :: src.drop (n + 1) := by
  rw [List.drop_eq_getElem_cons h, List.getD_eq_getElem _ _ h]

theorem lexStart_of_take (src : List Char) (o : Nat) (t : Token)
    (hty : ¬ t.type = TokenType.STRING_LITERAL)
    (hne : t.value ≠ [])
    (htake : (src.drop o).take t.value.length = t.value) :
    lexStart src o t := by
  unfold lexStart
  rw [if_neg hty]
  exact ⟨hne, htake⟩

theorem lexStart_string (src : List Char) (o : Nat) (t : Token)
    (hty : t.type = TokenType.STRING_LITERAL)
    (hq : src.getD o '\x00' = '"') :
    lexStart src o t := by
  unfold lexStart
  rw [if_pos hty]
  exact hq

theorem dispatch_spec (s : Tokenizer) (hlt : s.pos < s.source.length) :
    (s.dispatch).1.type ≠ TokenType.END_OF_FILE ∧
    (s.dispatch).1.line = s.line ∧
    (s.dispatch).1.column = s.column ∧
    lexStart s.source s.pos (s.dispatch).1 := by
  have hpeek := peek_zero_eq_getD s hlt
  unfold dispatch
  dsimp only
  by_cases h1 : isalphaChar (s.peek 0) = true ∨ s.peek 0 = '_'
  · rw [if_pos h1]
    have hpred : (isalnumChar (s.source.getD s.pos '\x00') ||
        s.source.getD s.pos '\x00' == '_') = true := by
      rw [← hpeek]
      rcases h1 with ha | ha
      · simp [isalnumChar, ha]
      · rw [ha]
        decide
    have hv := identFuel_eq_takeWhile (s.source.length - s.pos) s (Nat.le_refl _)
    have hvne : (identFuel (s.source.length - s.pos) s).1 ≠ [] := by
      rw [hv, drop_getD_cons _ _ hlt, List.takeWhile_cons, if_pos hpred]
      exact List.cons_ne_nil _ _
    have htake : (s.source.drop s.pos).take
        (identFuel (s.source.length - s.pos) s).1.length =
        (identFuel (s.source.length - s.pos) s).1 := by
      rw [hv]
      exact take_length_takeWhile _ _
    unfold readIdentifierOrKeyword
    dsimp only
    by_cases hk : keywords.contains (String.mk (identFuel (s.source.length - s.pos) s).1) = true
    · rw [if_pos hk]
      exact ⟨by simp, rfl, rfl, lexStart_of_take _ _ _ (by simp) hvne htake⟩
    · rw [if_neg hk]
      exact ⟨by simp, rfl, rfl, lexStart_of_take _ _ _ (by simp) hvne htake⟩
  · rw [if_neg h1]
    by_cases h2 : isdigitChar (s.peek 0) = true
    · rw [if_pos h2]
      have hpred : (isdigitChar (s.source.getD s.pos '\x00') ||
          s.source.getD s.pos '\x00' == '.') = true := by
        rw [← hpeek]
        simp [h2]
      have hv := numberFuel_eq_takeWhile (s.source.length - s.pos) s (Nat.le_refl _)
      have hvne : (numberFuel (s.source.length - s.pos) s).1 ≠ [] := by
        rw [hv, drop_getD_cons _ _ hlt, List.takeWhile_cons, if_pos hpred]
        exact List.cons_ne_nil _ _
      have htake : (s.source.drop s.pos).take
          (numberFuel (s.source.length - s.pos) s).1.length =
          (numberFuel (s.source.length - s.pos) s).1 := by
        rw [hv]
        exact take_length_takeWhile _ _
      unfold readNumber
      dsimp only
      exact ⟨by simp, rfl, rfl, lexStart_of_take _ _ _ (by simp) hvne htake⟩
    · rw [if_neg h2]
      by_cases h3 : s.peek 0 = '"'
      · rw [if_pos h3]
        unfold readString
        dsimp only
        refine ⟨by simp, rfl, rfl, lexStart_string _ _ _ rfl ?_⟩
        rw [← hpeek]
        exact h3
      · rw [if_neg h3]
        by_cases h4 : isPunctChar (s.peek 0) = true
        · rw [if_pos h4]
          dsimp only
          refine ⟨by simp, rfl, rfl, lexStart_of_take _ _ _ (by simp)
            (List.cons_ne_nil _ _) ?_⟩
          rw [advance_fst s hlt, drop_getD_cons _ _ hlt]
          rfl
        · rw [if_neg h4]
          by_cases h5 : isOpChar (s.peek 0) = true
          · rw [if_pos h5]
            by_cases h6 : isTwoCharOp (s.peek 0) (s.peek 1) = true
            · obtain ⟨ht, _⟩ := readOperator_two s h6
              rw [ht]
              have hlt1 : s.pos + 1 < s.source.length :=
                lt_of_peek_ne_nul s 1 (isTwoCharOp_snd_ne_nul h6)
              refine ⟨by simp, rfl, rfl, lexStart_of_take _ _ _ (by simp)
                (List.cons_ne_nil _ _) ?_⟩
              show (s.source.drop s.pos).take 2 = [s.peek 0, s.peek 1]
              rw [drop_getD_cons _ _ hlt, drop_getD_cons _ _ hlt1,
                peek_zero_eq_getD s hlt, peek_eq_getD s 1 hlt1]
              rfl
            · obtain ⟨ht, _⟩ := readOperator_one s h5 h6
              rw [ht]
              refine ⟨by simp, rfl, rfl, lexStart_of_take _ _ _ (by simp)
                (List.cons_ne_nil _ _) ?_⟩
              show (s.source.drop s.pos).take 1 = [s.peek 0]
              rw [drop_getD_cons _ _ hlt, peek_zero_eq_getD s hlt]
              rfl
          · rw [if_neg h5]
            dsimp only
            refine ⟨by simp, rfl, rfl, lexStart_of_take _ _ _ (by simp)
              (List.cons_ne_nil _ _) ?_⟩
            rw [advance_fst s hlt, drop_getD_cons _ _ hlt]
            rfl

/-- Every token emitted by the scan loop is a non-`END_OF_FILE` token whose
recorded line/column is the position, under the newline/column rule, of the
offset at which its lexeme starts. -/
theorem tokenizeFuel_spec :
    ∀ (f : Nat) (s : Tokenizer), posInv s →
      ∀ t ∈ (tokenizeFuel f s).1,
        t.type ≠ TokenType.END_OF_FILE ∧
        ∃ o, (t.line, t.column) = lineColAt s.source o ∧ lexStart s.source o t := by
  intro f
  induction f with
  | zero =>
    intro s hinv t ht
    simp only [tokenizeFuel, List.not_mem_nil] at ht
  | succ f ih =>
    intro s hinv t ht
    simp only [tokenizeFuel] at ht
    split at ht
    · split at ht
      · simp only [List.not_mem_nil] at ht
      case isFalse hle =>
        have hinv1 : posInv ((s.skipWhitespace).skipComments) :=
          skipComments_pres posInv posInv_advance_pres _
            (skipWhitespace_pres posInv posInv_advance_pres _ hinv)
        have hsrc1 : ((s.skipWhitespace).skipComments).source = s.source :=
          skipComments_pres (fun u => u.source = s.source)
            (source_advance_pres s.source) _
            (skipWhitespace_pres (fun u => u.source = s.source)
              (source_advance_pres s.source) _ rfl)
        have hlt1 : ((s.skipWhitespace).skipComments).pos <
            ((s.skipWhitespace).skipComments).source.length := Nat.lt_of_not_le hle
        rcases List.mem_cons.1 ht with rfl | hmem
        · obtain ⟨hty, hline, hcol, hlex⟩ := dispatch_spec _ hlt1
          refine ⟨hty, ⟨((s.skipWhitespace).skipComments).pos, ?_, ?_⟩⟩
          · rw [hline, hcol, ← hsrc1]
            exact hinv1
          · rw [← hsrc1]
            exact hlex
        · have hinv2 : posInv ((((s.skipWhitespace).skipComments).dispatch).2) :=
            dispatch_pres posInv posInv_advance_pres _ hinv1
          have hsrc2 : ((((s.skipWhitespace).skipComments).dispatch).2).source = s.source := by
            rw [← hsrc1]
            exact dispatch_pres (fun u => u.source = ((s.skipWhitespace).skipComments).source)
              (source_advance_pres _) _ rfl
          obtain ⟨hty, o, hpos, hlex⟩ := ih _ hinv2 t hmem
          rw [hsrc2] at hpos hlex
          exact ⟨hty, o, hpos, hlex⟩
    · simp only [List.not_mem_nil] at ht

theorem advance_pos_mono (n : Nat) (s : Tokenizer) (h : n ≤ s.pos) :
    n ≤ (s.advance).2.pos := by
  rcases Nat.lt_or_ge s.pos s.source.length with h1 | h1
  · rw [advance_pos s h1]
    omega
  · rw [advance_eq_of_le s h1]
    exact h

theorem identGuard_lt (s : Tokenizer)
    (hg : isalnumChar (s.peek 0) = true ∨ s.peek 0 = '_') :
    s.pos < s.source.length := by
  have hne : s.peek 0 ≠ '\x00' := by
    rcases hg with h1 | h1
    · intro hc
      rw [hc] at h1
      exact absurd h1 (by decide)
    · intro hc
      rw [hc] at h1
      exact absurd h1 (by decide)
  have := lt_of_peek_ne_nul s 0 hne
  omega

theorem numberGuard_lt (s : Tokenizer)
    (hg : isdigitChar (s.peek 0) = true ∨ s.peek 0 = '.') :
    s.pos < s.source.length := by
  have hne : s.peek 0 ≠ '\x00' := by
    rcases hg with h1 | h1
    · intro hc
      rw [hc] at h1
      exact absurd h1 (by decide)
    · intro hc
      rw [hc] at h1
      exact absurd h1 (by decide)
  have := lt_of_peek_ne_nul s 0 hne
  omega

theorem identFuel_progress (s : Tokenizer)
    (hg : isalnumChar (s.peek 0) = true ∨ s.peek 0 = '_') :
    ∀ f : Nat, 0 < f → s.pos + 1 ≤ (identFuel f s).2.pos := by
  intro f hf
  have hlt := identGuard_lt s hg
  cases f with
  | zero => omega
  | succ f =>
    unfold identFuel
    rw [if_pos hg]
    dsimp only
    exact identFuel_pres (fun u => s.pos + 1 ≤ u.pos)
      (fun u hu => advance_pos_mono _ u hu) f (s.advance).2
      (by dsimp only; rw [advance_pos s hlt])

theorem numberFuel_progress (s : Tokenizer)
    (hg : isdigitChar (s.peek 0) = true ∨ s.peek 0 = '.') :
    ∀ f : Nat, 0 < f → s.pos + 1 ≤ (numberFuel f s).2.pos := by
  intro f hf
  have hlt := numberGuard_lt s hg
  cases f with
  | zero => omega
  | succ f =>
    unfold numberFuel
    rw [if_pos hg]
    dsimp only
    exact numberFuel_pres (fun u => s.pos + 1 ≤ u.pos)
      (fun u hu => advance_pos_mono _ u hu) f (s.advance).2
      (by dsimp only; rw [advance_pos s hlt])

theorem readString_progress (s : Tokenizer) (hlt : s.pos < s.source.length) :
    s.pos + 1 ≤ (s.readString).2.pos := by
  unfold readString
  dsimp only
  have hbody := stringBodyFuel_pres (fun u => s.pos + 1 ≤ u.pos)
    (fun u hu => advance_pos_mono _ u hu)
    ((s.advance).2.source.length - (s.advance).2.pos) (s.advance).2
    (by dsimp only; rw [advance_pos s hlt])
  dsimp only at hbody
  split
  · exact advance_pos_mono _ _ hbody
  · exact hbody

theorem readOperator_progress (s : Tokenizer)
    (hop : isOpChar (s.peek 0) = true) :
    s.pos + 1 ≤ (s.readOperator).2.pos := by
  by_cases h2 : isTwoCharOp (s.peek 0) (s.peek 1) = true
  · rw [(readOperator_two s h2).2]
    omega
  · rw [(readOperator_one s hop h2).2]

theorem dispatch_progress (s : Tokenizer) (hlt : s.pos < s.source.length) :
    s.pos + 1 ≤ (s.dispatch).2.pos := by
  unfold dispatch
  dsimp only
  by_cases h1 : isalphaChar (s.peek 0) = true ∨ s.peek 0 = '_'
  · rw [if_pos h1]
    have hg : isalnumChar (s.peek 0) = true ∨ s.peek 0 = '_' := by
      rcases h1 with ha | ha
      · exact Or.inl (by simp [isalnumChar, ha])
      · exact Or.inr ha
    unfold readIdentifierOrKeyword
    dsimp only
    exact identFuel_progress s hg _ (by omega)
  · rw [if_neg h1]
    by_cases h2 : isdigitChar (s.peek 0) = true
    · rw [if_pos h2]
      unfold readNumber
      dsimp only
      exact numberFuel_progress s (Or.inl h2) _ (by omega)
    · rw [if_neg h2]
      by_cases h3 : s.peek 0 = '"'
      · rw [if_pos h3]
        exact readString_progress s hlt
      · rw [if_neg h3]
        by_cases h4 : isPunctChar (s.peek 0) = true
        · rw [if_pos h4]
          dsimp only
          rw [advance_pos s hlt]
        · rw [if_neg h4]
          by_cases h5 : isOpChar (s.peek 0) = true
          · rw [if_pos h5]
            exact readOperator_progress s h5
          · rw [if_neg h5]
            dsimp only
            rw [advance_pos s hlt]

/-- The fuel instantiation is irrelevant once it is at least
`source.length - pos`: the loop always exits via its guard, never by running
out of fuel, so the fuel-based loop is faithful to the C++ `while` loop. -/
theorem tokenizeFuel_congr :
    ∀ (f g : Nat) (s : Tokenizer), s.source.length - s.pos ≤ f →
      s.source.length - s.pos ≤ g → tokenizeFuel f s = tokenizeFuel g s := by
  intro f
  induction f with
  | zero =>
    intro g s h1 h2
    cases g with
    | zero => rfl
    | succ g =>
      simp only [tokenizeFuel]
      rw [if_neg (by omega : ¬ s.pos < s.source.length)]
  | succ f ih =>
    intro g s h1 h2
    cases g with
    | zero =>
      simp only [tokenizeFuel]
      rw [if_neg (by omega : ¬ s.pos < s.source.length)]
    | succ g =>
      simp only [tokenizeFuel]
      by_cases hpos : s.pos < s.source.length
      · rw [if_pos hpos, if_pos hpos]
        by_cases hdone : ((s.skipWhitespace).skipComments).source.length ≤
            ((s.skipWhitespace).skipComments).pos
        · rw [if_pos hdone, if_pos hdone]
        · rw [if_neg hdone, if_neg hdone]
          have hsrc1 : ((s.skipWhitespace).skipComments).source = s.source :=
            skipComments_pres (fun u => u.source = s.source)
              (source_advance_pres s.source) _
              (skipWhitespace_pres (fun u => u.source = s.source)
                (source_advance_pres s.source) _ rfl)
          have hmono1 : s.pos ≤ ((s.skipWhitespace).skipComments).pos :=
            skipComments_pres (fun u => s.pos ≤ u.pos)
              (fun u hu => advance_pos_mono _ u hu) _
              (skipWhitespace_pres (fun u => s.pos ≤ u.pos)
                (fun u hu => advance_pos_mono _ u hu) _ (Nat.le_refl _))
          have hlt1 : ((s.skipWhitespace).skipComments).pos <
              ((s.skipWhitespace).skipComments).source.length :=
            Nat.lt_of_not_le hdone
          have hprog := dispatch_progress _ hlt1
          have hsrc2 : ((((s.skipWhitespace).skipComments).dispatch).2).source =
              s.source := by
            rw [← hsrc1]
            exact dispatch_pres
              (fun u => u.source = ((s.skipWhitespace).skipComments).source)
              (source_advance_pres _) _ rfl
          have hsuff : ((((s.skipWhitespace).skipComments).dispatch).2).source.length -
              ((((s.skipWhitespace).skipComments).dispatch).2).pos ≤ f ∧
              ((((s.skipWhitespace).skipComments).dispatch).2).source.length -
              ((((s.skipWhitespace).skipComments).dispatch).2).pos ≤ g := by
            rw [hsrc2]
            constructor <;> omega
          rw [ih g _ hsuff.1 hsuff.2]
      · rw [if_neg hpos, if_neg hpos]

/-- The fuel `src.length` used by `tokenize` is sufficient: any fuel of at
least `src.length` computes the same scan. -/
theorem tokenizeFuel_sufficient (src : List Char) (f : Nat)
    (h : src.length ≤ f) :
    tokenizeFuel f (init src) = tokenizeFuel src.length (init src) :=
  tokenizeFuel_congr f src.length (init src) (by simpa using h)
    (Nat.sub_le _ _)

/-- Erasing the recorded start offsets from the instrumented scan loop gives
back exactly the scan loop of `tokenize`. -/
theorem tokenizeFuelWithStarts_erase :
    ∀ (f : Nat) (s : Tokenizer),
      (tokenizeFuelWithStarts f s).1.map Prod.fst = (tokenizeFuel f s).1 ∧
      (tokenizeFuelWithStarts f s).2 = (tokenizeFuel f s).2 := by
  intro f
  induction f with
  | zero => intro s; exact ⟨rfl, rfl⟩
  | succ f ih =>
    intro s
    simp only [tokenizeFuelWithStarts, tokenizeFuel]
    by_cases hpos : s.pos < s.source.length
    · rw [if_pos hpos, if_pos hpos]
      by_cases hdone : ((s.skipWhitespace).skipComments).source.length ≤
          ((s.skipWhitespace).skipComments).pos
      · rw [if_pos hdone, if_pos hdone]
        exact ⟨rfl, rfl⟩
      · rw [if_neg hdone, if_neg hdone]
        dsimp only
        refine ⟨?_, (ih _).2⟩
        rw [List.map_cons, (ih _).1]
    · rw [if_neg hpos, if_neg hpos]
      exact ⟨rfl, rfl⟩

/-- Every start offset recorded by the instrumented scan loop is at or after
the cursor position the loop was entered with. -/
theorem tokenizeFuelWithStarts_start_le :
    ∀ (f : Nat) (s : Tokenizer), ∀ p ∈ (tokenizeFuelWithStarts f s).1,
      s.pos ≤ p.2 := by
  intro f
  induction f with
  | zero =>
    intro s p hp
    simp only [tokenizeFuelWithStarts, List.not_mem_nil] at hp
  | succ f ih =>
    intro s p hp
    simp only [tokenizeFuelWithStarts] at hp
    split at hp
    · split at hp
      · simp only [List.not_mem_nil] at hp
      case isFalse hdone =>
        have hmono1 : s.pos ≤ ((s.skipWhitespace).skipComments).pos :=
          skipComments_pres (fun u => s.pos ≤ u.pos)
            (fun u hu => advance_pos_mono _ u hu) _
            (skipWhitespace_pres (fun u => s.pos ≤ u.pos)
              (fun u hu => advance_pos_mono _ u hu) _ (Nat.le_refl _))
        rcases List.mem_cons.1 hp with rfl | hmem
        · exact hmono1
        · have h2 := ih _ p hmem
          have hprog := dispatch_progress _ (Nat.lt_of_not_le hdone)
          omega
    · simp only [List.not_mem_nil] at hp

/-- The start offsets recorded by the instrumented scan loop are strictly
increasing: the tokens are attached to their genuine left-to-right
occurrences in the source. -/
theorem tokenizeFuelWithStarts_chain :
    ∀ (f : Nat) (s : Tokenizer),
      List.Chain' (fun a b : Token × Nat => a.2 < b.2)
        (tokenizeFuelWithStarts f s).1 := by
  intro f
  induction f with
  | zero => intro s; exact List.chain'_nil
  | succ f ih =>
    intro s
    simp only [tokenizeFuelWithStarts]
    split
    · split
      · exact List.chain'_nil
      case isFalse hdone =>
        dsimp only
        rw [List.chain'_cons']
        refine ⟨?_, ih _⟩
        intro b hb
        have hble := tokenizeFuelWithStarts_start_le f _ b
          (List.mem_of_mem_head? hb)
        have hprog := dispatch_progress _ (Nat.lt_of_not_le hdone)
        dsimp only
        omega
    · exact List.chain'_nil

/-- Every token of the instrumented scan loop is a non-`END_OF_FILE` token
whose recorded line/column is the position, under the newline/column rule, of
its recorded start offset, and whose lexeme starts at that offset. -/
theorem tokenizeFuelWithStarts_spec :
    ∀ (f : Nat) (s : Tokenizer), posInv s →
      ∀ p ∈ (tokenizeFuelWithStarts f s).1,
        p.1.type ≠ TokenType.END_OF_FILE ∧
        (p.1.line, p.1.column) = lineColAt s.source p.2 ∧
        lexStart s.source p.2 p.1 := by
  intro f
  induction f with
  | zero =>
    intro s hinv p hp
    simp only [tokenizeFuelWithStarts, List.not_mem_nil] at hp
  | succ f ih =>
    intro s hinv p hp
    simp only [tokenizeFuelWithStarts] at hp
    split at hp
    · split at hp
      · simp only [List.not_mem_nil] at hp
      case isFalse hle =>
        have hinv1 : posInv ((s.skipWhitespace).skipComments) :=
          skipComments_pres posInv posInv_advance_pres _
            (skipWhitespace_pres posInv posInv_advance_pres _ hinv)
        have hsrc1 : ((s.skipWhitespace).skipComments).source = s.source :=
          skipComments_pres (fun u => u.source = s.source)
            (source_advance_pres s.source) _
            (skipWhitespace_pres (fun u => u.source = s.source)
              (source_advance_pres s.source) _ rfl)
        have hlt1 : ((s.skipWhitespace).skipComments).pos <
            ((s.skipWhitespace).skipComments).source.length := Nat.lt_of_not_le hle
        rcases List.mem_cons.1 hp with rfl | hmem
        · obtain ⟨hty, hline, hcol, hlex⟩ := dispatch_spec _ hlt1
          refine ⟨hty, ?_, ?_⟩
          · rw [hline, hcol, ← hsrc1]
            exact hinv1
          · rw [← hsrc1]
            exact hlex
        · have hinv2 : posInv ((((s.skipWhitespace).skipComments).dispatch).2) :=
            dispatch_pres posInv posInv_advance_pres _ hinv1
          have hsrc2 : ((((s.skipWhitespace).skipComments).dispatch).2).source =
              s.source := by
            rw [← hsrc1]
            exact dispatch_pres
              (fun u => u.source = ((s.skipWhitespace).skipComments).source)
              (source_advance_pres _) _ rfl
          obtain ⟨hty, hpos, hlex⟩ := ih _ hinv2 p hmem
          rw [hsrc2] at hpos hlex
          exact ⟨hty, hpos, hlex⟩
    · simp only [List.not_mem_nil] at hp

end Tokenizer

/-- C1: the spec claims the input `// comment\nx` yields exactly
`Identifier("x"), EndOfFile`, the comment (and the whitespace/comment runs
around it) being consumed silently.  The code instead emits an `UNKNOWN`
token holding the newline: the dispatch runs right after `skipComments`
without re-skipping whitespace, so the newline that terminates a line
comment reaches the dispatch's fallback branch.  This theorem evaluates the
scanner at that failing input. -/
theorem comment_newline_unknown_token :
    Tokenizer.tokenize ("// comment\nx".data) =
      [⟨TokenType.UNKNOWN, ['\n'], 1, 11⟩,
       ⟨TokenType.IDENTIFIER, ['x'], 2, 1⟩,
       ⟨TokenType.END_OF_FILE, [], 2, 2⟩] := by
  decide

/-- C2: for every input string the scan is total (`tokenize` is a Lean
function, hence terminating, with no failure case) and the last token of the
returned sequence has kind `END_OF_FILE`. -/
theorem tokenize_last_eof (src : List Char) :
    ∃ t, (Tokenizer.tokenize src).getLast? = some t ∧
      t.type = TokenType.END_OF_FILE := by
  unfold Tokenizer.tokenize
  exact ⟨_, List.getLast?_concat _, rfl⟩

/-- C3: every token sequence contains exactly one `END_OF_FILE` token, it is
the final element, its line/column are the cursor's final position, and the
empty input yields exactly one token, `END_OF_FILE` at line 1 column 1. -/
theorem tokenize_unique_final_eof (src : List Char) :
    ((Tokenizer.tokenize src).countP
      (fun t => t.type == TokenType.END_OF_FILE) = 1) ∧
    (Tokenizer.tokenize src).getLast? =
      some ⟨TokenType.END_OF_FILE, [], (Tokenizer.finalState src).line,
        (Tokenizer.finalState src).column⟩ ∧
    Tokenizer.tokenize [] = [⟨TokenType.END_OF_FILE, [], 1, 1⟩] := by
  refine ⟨?_, ?_, rfl⟩
  · unfold Tokenizer.tokenize
    rw [List.countP_append]
    have h0 : (Tokenizer.tokenizeFuel src.length (Tokenizer.init src)).1.countP
        (fun t => t.type == TokenType.END_OF_FILE) = 0 :=
      List.countP_eq_zero.2 (fun t ht => by
        have := (Tokenizer.tokenizeFuel_spec src.length _
          (Tokenizer.posInv_init src) t ht).1
        simpa using this)
    rw [h0]
    rfl
  · unfold Tokenizer.tokenize
    exact List.getLast?_concat _

/-- C4: the cursor invariant: line and column start at 1; consuming a newline
increments the line and resets the column to 1; consuming any other character
keeps the line and increments the column by 1. -/
theorem cursor_rule :
    (∀ src : List Char,
      (Tokenizer.init src).line = 1 ∧ (Tokenizer.init src).column = 1) ∧
    (∀ s : Tokenizer, s.pos < s.source.length →
      ((s.advance).1 = '\n' →
        (s.advance).2.line = s.line + 1 ∧ (s.advance).2.column = 1) ∧
      ((s.advance).1 ≠ '\n' →
        (s.advance).2.line = s.line ∧ (s.advance).2.column = s.column + 1)) := by
  refine ⟨fun src => ⟨rfl, rfl⟩, fun s h => ?_⟩
  have hfst := Tokenizer.advance_fst s h
  by_cases hc : s.source.getD s.pos '\x00' = '\n'
  · constructor
    · intro _
      unfold Tokenizer.advance
      rw [if_neg (Nat.not_le.2 h)]
      dsimp only
      rw [if_pos hc]
      exact ⟨rfl, rfl⟩
    · intro hn
      exact absurd (hfst.trans hc) hn
  · constructor
    · intro hn
      rw [hfst] at hn
      exact absurd hn hc
    · intro _
      unfold Tokenizer.advance
      rw [if_neg (Nat.not_le.2 h)]
      dsimp only
      rw [if_neg hc]
      exact ⟨rfl, rfl⟩

theorem cursor_rule_witness :
    ((⟨['\n'], 0, 3, 5⟩ : Tokenizer).advance).2.line = 4 ∧
    ((⟨['\n'], 0, 3, 5⟩ : Tokenizer).advance).2.column = 1 ∧
    ((⟨['a'], 0, 3, 5⟩ : Tokenizer).advance).2.line = 3 ∧
    ((⟨['a'], 0, 3, 5⟩ : Tokenizer).advance).2.column = 6 := by
  have h1 := (cursor_rule.2 ⟨['\n'], 0, 3, 5⟩ (by decide)).1 (by decide)
  have h2 := (cursor_rule.2 ⟨['a'], 0, 3, 5⟩ (by decide)).2 (by decide)
  exact ⟨h1.1, h1.2, h2.1, h2.2⟩

/-- C5: the non-`END_OF_FILE` tokens of `tokenize` are exactly the tokens of
the instrumented scan, in order, each paired with the byte offset at which
its sub-scanner started reading (the first character of its lexeme); those
offsets are strictly increasing (each token is tied to its genuine
left-to-right occurrence), and every token's recorded line/column equals the
position of its start offset under the newline/column-increment rule, the
lexeme (its text, or its opening quote for a string literal) beginning at
that offset. -/
theorem token_position_correct (src : List Char) :
    Tokenizer.tokenize src =
      ((Tokenizer.tokenizeFuelWithStarts src.length
          (Tokenizer.init src)).1.map Prod.fst) ++
        [⟨TokenType.END_OF_FILE, [], (Tokenizer.finalState src).line,
          (Tokenizer.finalState src).column⟩] ∧
    List.Chain' (fun a b : Token × Nat => a.2 < b.2)
      (Tokenizer.tokenizeFuelWithStarts src.length (Tokenizer.init src)).1 ∧
    ∀ p ∈ (Tokenizer.tokenizeFuelWithStarts src.length
        (Tokenizer.init src)).1,
      p.1.type ≠ TokenType.END_OF_FILE ∧
      (p.1.line, p.1.column) = Tokenizer.lineColAt src p.2 ∧
      Tokenizer.lexStart src p.2 p.1 := by
  refine ⟨?_, Tokenizer.tokenizeFuelWithStarts_chain _ _, ?_⟩
  · unfold Tokenizer.tokenize
    rw [(Tokenizer.tokenizeFuelWithStarts_erase src.length
      (Tokenizer.init src)).1]
    rfl
  · intro p hp
    exact Tokenizer.tokenizeFuelWithStarts_spec src.length _
      (Tokenizer.posInv_init src) p hp

theorem token_position_correct_witness :
    (⟨TokenType.IDENTIFIER, ['x'], 1, 1⟩ : Token).type ≠
      TokenType.END_OF_FILE ∧
    (((1 : Nat), (1 : Nat)) = Tokenizer.lineColAt "x".data 0) ∧
    Tokenizer.lexStart "x".data 0 ⟨TokenType.IDENTIFIER, ['x'], 1, 1⟩ :=
  (token_position_correct "x".data).2.2
    (⟨TokenType.IDENTIFIER, ['x'], 1, 1⟩, 0) (by decide)

/-- C6: an identifier-shaped lexeme (the maximal run of
alphanumeric/underscore characters at the cursor) is classified `KEYWORD`
exactly when it is a member of the fixed reserved-word set, and is classified
`IDENTIFIER` otherwise. -/
theorem keyword_classification (s : Tokenizer)
    (_hg : isalphaChar (s.peek 0) = true ∨ s.peek 0 = '_') :
    ((s.readIdentifierOrKeyword).1.type = TokenType.KEYWORD ↔
      keywords.contains (String.mk (s.readIdentifierOrKeyword).1.value) = true) ∧
    ((s.readIdentifierOrKeyword).1.type = TokenType.KEYWORD ∨
      (s.readIdentifierOrKeyword).1.type = TokenType.IDENTIFIER) ∧
    (s.readIdentifierOrKeyword).1.value =
      (s.source.drop s.pos).takeWhile (fun c => isalnumChar c || c == '_') := by
  refine ⟨?_, ?_, Tokenizer.identFuel_eq_takeWhile _ s (Nat.le_refl _)⟩
  · unfold Tokenizer.readIdentifierOrKeyword
    dsimp only
    by_cases hk : keywords.contains
        (String.mk (Tokenizer.identFuel (s.source.length - s.pos) s).1) = true
    · rw [if_pos hk]
      exact iff_of_true rfl hk
    · rw [if_neg hk]
      exact iff_of_false (by simp) hk
  · unfold Tokenizer.readIdentifierOrKeyword
    dsimp only
    by_cases hk : keywords.contains
        (String.mk (Tokenizer.identFuel (s.source.length - s.pos) s).1) = true
    · rw [if_pos hk]
      exact Or.inl rfl
    · rw [if_neg hk]
      exact Or.inr rfl

theorem keyword_classification_witness :
    (((Tokenizer.init "int".data).readIdentifierOrKeyword).1.type =
        TokenType.KEYWORD ↔
      keywords.contains (String.mk
        ((Tokenizer.init "int".data).readIdentifierOrKeyword).1.value) = true) ∧
    (((Tokenizer.init "int".data).readIdentifierOrKeyword).1.type =
        TokenType.KEYWORD ∨
      ((Tokenizer.init "int".data).readIdentifierOrKeyword).1.type =
        TokenType.IDENTIFIER) ∧
    ((Tokenizer.init "int".data).readIdentifierOrKeyword).1.value =
      (((Tokenizer.init "int".data).source.drop
        (Tokenizer.init "int".data).pos).takeWhile
          (fun c => isalnumChar c || c == '_')) :=
  keyword_classification (Tokenizer.init "int".data) (by decide)

/-- C7: at an operator character, two characters are consumed into one
`OPERATOR` token exactly when the current and next character form one of the
pairs in the fixed table, else exactly one character is consumed; input
`"=="` yields one operator token `==`, while `"<<"` yields two
single-character `<` tokens. -/
theorem operator_two_char :
    (∀ s : Tokenizer, Tokenizer.isOpChar (s.peek 0) = true →
      (((s.peek 0, s.peek 1) ∈ Tokenizer.opPairs →
        (s.readOperator).1.value = [s.peek 0, s.peek 1] ∧
        (s.readOperator).2.pos = s.pos + 2) ∧
      ((s.peek 0, s.peek 1) ∉ Tokenizer.opPairs →
        (s.readOperator).1.value = [s.peek 0] ∧
        (s.readOperator).2.pos = s.pos + 1) ∧
      (s.readOperator).1.type = TokenType.OPERATOR)) ∧
    Tokenizer.tokenize "==".data =
      [⟨TokenType.OPERATOR, ['=', '='], 1, 1⟩,
       ⟨TokenType.END_OF_FILE, [], 1, 3⟩] ∧
    Tokenizer.tokenize "<<".data =
      [⟨TokenType.OPERATOR, ['<'], 1, 1⟩, ⟨TokenType.OPERATOR, ['<'], 1, 2⟩,
       ⟨TokenType.END_OF_FILE, [], 1, 3⟩] := by
  refine ⟨?_, by decide, by decide⟩
  intro s hop
  refine ⟨?_, ?_, Tokenizer.readOperator_type s⟩
  · intro hmem
    obtain ⟨ht, hp⟩ :=
      Tokenizer.readOperator_two s (Tokenizer.isTwoCharOp_iff_mem.2 hmem)
    rw [ht]
    exact ⟨rfl, hp⟩
  · intro hmem
    have h2 : ¬ Tokenizer.isTwoCharOp (s.peek 0) (s.peek 1) = true := fun hc =>
      hmem (Tokenizer.isTwoCharOp_iff_mem.1 hc)
    obtain ⟨ht, hp⟩ := Tokenizer.readOperator_one s hop h2
    rw [ht]
    exact ⟨rfl, hp⟩

theorem operator_two_char_witness :
    ((Tokenizer.init "==".data).readOperator).1.value = ['=', '='] ∧
    ((Tokenizer.init "==".data).readOperator).2.pos = 2 ∧
    ((Tokenizer.init "<<".data).readOperator).1.value = ['<'] ∧
    ((Tokenizer.init "<<".data).readOperator).2.pos = 1 := by
  have h1 := (operator_two_char.1 (Tokenizer.init "==".data) (by decide)).1
    (by decide)
  have h2 := ((operator_two_char.1 (Tokenizer.init "<<".data) (by decide)).2).1
    (by decide)
  exact ⟨h1.1, h1.2, h2.1, h2.2⟩

/-- C8: the string sub-scanner drops the delimiting double-quotes, and for a
backslash inside the string it drops the backslash and emits the following
character verbatim: the input `"ab\"cd"` yields one `STRING_LITERAL` token
with text `ab"cd`, and one loop step at a backslash emits exactly the
character after the backslash. -/
theorem string_escape_handling :
    Tokenizer.tokenize "\"ab\\\"cd\"".data =
      [⟨TokenType.STRING_LITERAL, ['a', 'b', '"', 'c', 'd'], 1, 1⟩,
       ⟨TokenType.END_OF_FILE, [], 1, 9⟩] ∧
    (∀ (f : Nat) (s : Tokenizer), s.peek 0 = '\\' →
      ((s.advance).2.peek 0 ≠ '\x00') →
      Tokenizer.stringBodyFuel (f + 1) s =
        ((((s.advance).2).advance).1 ::
            (Tokenizer.stringBodyFuel f (((s.advance).2).advance).2).1,
          (Tokenizer.stringBodyFuel f (((s.advance).2).advance).2).2)) := by
  refine ⟨by decide, ?_⟩
  intro f s h1 h2
  simp only [Tokenizer.stringBodyFuel]
  rw [if_pos ⟨by rw [h1]; decide, by rw [h1]; decide⟩, if_pos h1, if_pos h2]

theorem string_escape_handling_witness :
    Tokenizer.stringBodyFuel 2 ⟨['\\', 'q'], 0, 1, 1⟩ =
      (['q'], ⟨['\\', 'q'], 2, 1, 3⟩) :=
  string_escape_handling.2 1 ⟨['\\', 'q'], 0, 1, 1⟩ (by decide) (by decide)

/-- C9: an unterminated string literal still yields a `STRING_LITERAL` token
with the characters accumulated up to end-of-input, a trailing backslash at
end-of-input is consumed with nothing read past the buffer, and `readString`
never moves the cursor beyond the end of the source. -/
theorem unterminated_string_tolerated :
    Tokenizer.tokenize "\"ab".data =
      [⟨TokenType.STRING_LITERAL, ['a', 'b'], 1, 1⟩,
       ⟨TokenType.END_OF_FILE, [], 1, 4⟩] ∧
    Tokenizer.tokenize "\"ab\\".data =
      [⟨TokenType.STRING_LITERAL, ['a', 'b'], 1, 1⟩,
       ⟨TokenType.END_OF_FILE, [], 1, 5⟩] ∧
    (∀ s : Tokenizer, s.pos ≤ s.source.length →
      (s.readString).2.pos ≤ s.source.length) := by
  refine ⟨by decide, by decide, ?_⟩
  intro s h
  have hle := Tokenizer.readString_pres (fun u => u.pos ≤ u.source.length)
    Tokenizer.posLe_advance_pres s h
  dsimp only at hle
  have hsrc : (s.readString).2.source = s.source :=
    Tokenizer.readString_pres (fun u => u.source = s.source)
      (Tokenizer.source_advance_pres s.source) s rfl
  rw [hsrc] at hle
  exact hle

theorem unterminated_string_tolerated_witness :
    (((⟨['"', 'a'], 0, 1, 1⟩ : Tokenizer)).readString).2.pos ≤
      ((⟨['"', 'a'], 0, 1, 1⟩ : Tokenizer)).source.length :=
  unterminated_string_tolerated.2.2 _ (by decide)

/-- C10: every `END_OF_FILE` token in the output of `tokenize` (there is
exactly one, the terminator) has the empty string as its text. -/
theorem eof_token_empty_text (src : List Char) :
    ∀ t ∈ Tokenizer.tokenize src, t.type = TokenType.END_OF_FILE →
      t.value = [] := by
  intro t ht hty
  unfold Tokenizer.tokenize at ht
  rcases List.mem_append.1 ht with hm | hm
  · exact absurd hty (Tokenizer.tokenizeFuel_spec src.length _
      (Tokenizer.posInv_init src) t hm).1
  · rcases List.mem_singleton.1 hm with rfl
    rfl

theorem eof_token_empty_text_witness :
    (⟨TokenType.END_OF_FILE, [], 1, 1⟩ : Token).value = [] :=
  eof_token_empty_text [] ⟨TokenType.END_OF_FILE, [], 1, 1⟩
    (by decide) (by decide)
